import Mathlib

/-!
Verification of netlib/utils.py (byte/text utility functions of a networking
toolkit) against its specification.

Shallow embedding conventions:
* a Python bytes object is a `List Nat` whose elements are byte values (< 256);
* a Python str is a `List Nat` of Unicode code points;
* Python exceptions are modelled by `Except ErrKind`; we distinguish only the
  exception kinds relevant to the spec (TypeError vs ValueError);
* the Python 3 branches of the six-compatible source are modelled.
-/

/-- Kinds of Python exceptions distinguished by the specification. -/
inductive ErrKind where
  | typeError
  | valueError
deriving DecidableEq, Repr

instance {ε α : Type} [DecidableEq ε] [DecidableEq α] : DecidableEq (Except ε α) := fun x y =>
  match x, y with
  | .ok a, .ok b =>
    if h : a = b then .isTrue (by rw [h]) else .isFalse (by intro hc; cases hc; exact h rfl)
  | .error a, .error b =>
    if h : a = b then .isTrue (by rw [h]) else .isFalse (by intro hc; cases hc; exact h rfl)
  | .ok _, .error _ => .isFalse (by intro hc; cases hc)
  | .error _, .ok _ => .isFalse (by intro hc; cases hc)

/-- A dynamically typed Python value, as far as the utility functions need to
distinguish types: a bytes object, a str, an int, or None. -/
inductive PyVal where
  | bytes (bs : List Nat)
  | str (cs : List Nat)
  | int (n : Int)
  | pyNone
deriving DecidableEq, Repr

/-- Lowercase hexadecimal digit character (code point) for a value below 16,
as produced by CPython's number formatting (0-9 then a-f). -/
def pyHexDigit (n : Nat) : Nat :=
  if n < 10 then 48 + n else 87 + n

/-- One byte of CPython's bytes repr, given the chosen quote character `quote`:
the quote character and the backslash (92) are backslash-escaped, tab (9),
newline (10) and carriage return (13) become \t, \n, \r, other bytes outside
the printable range 32..126 become \xNN with lowercase hex digits, and every
remaining byte stands for itself. -/
def reprEscapeByte (quote : Nat) (c : Nat) : List Nat :=
  if c = quote ∨ c = 92 then [92, c]
  else if c = 9 then [92, 116]
  else if c = 10 then [92, 110]
  else if c = 13 then [92, 114]
  else if c < 32 ∨ 127 ≤ c then [92, 120, pyHexDigit (c / 16), pyHexDigit (c % 16)]
  else [c]

/-- CPython's quote selection for a bytes repr: a single quote (39) unless the
data contains a single quote and no double quote (34), in which case the
double quote is used. -/
def reprQuote (bs : List Nat) : Nat :=
  if 39 ∈ bs ∧ ¬ 34 ∈ bs then 34 else 39

/-- CPython's repr of a bytes object: the letter b (98), an opening quote, the
escaped bytes, and a closing quote. -/
def pyBytesRepr (bs : List Nat) : List Nat :=
  let q := reprQuote bs
  98 :: q :: (bs.map (reprEscapeByte q)).flatten ++ [q]

/-- bytes_to_escaped_str from netlib/utils.py. The source computes
repr(b'"' + data).lstrip("b")[2:-1]: a double quote (34) is prepended so that
repr always chooses single-quote delimiters, then the leading b, the opening
quote, the rendered double quote and the closing quote are stripped.
Non-bytes input raises ValueError (the source raises ValueError, not
TypeError, in its isinstance guard). -/
def bytes_to_escaped_str : PyVal → Except ErrKind (List Nat)
  | .bytes data =>
    .ok ((((pyBytesRepr (34 :: data)).dropWhile (fun c => c = 98)).drop 2).dropLast)
  | _ => .error .valueError

/-- Octal digit test used by CPython's escape decoder. -/
def isOctDigitB (c : Nat) : Bool :=
  48 ≤ c && c ≤ 55

/-- Hexadecimal digit test used by CPython's escape decoder (0-9, a-f, A-F). -/
def isHexDigitB (c : Nat) : Bool :=
  (48 ≤ c && c ≤ 57) || (97 ≤ c && c ≤ 102) || (65 ≤ c && c ≤ 70)

/-- Numeric value of a hexadecimal digit character. -/
def hexDigitVal (c : Nat) : Nat :=
  if c ≤ 57 then c - 48 else if c ≤ 70 then c - 55 else c - 87

/-- Octal-escape consumption of CPython's escape decoder: after a first octal
digit e, up to two more octal digits are read; the value is truncated to a
byte. Returns the decoded byte together with the unconsumed remainder. -/
def decodeOctal (e : Nat) (r : List Nat) : Nat × List Nat :=
  match r with
  | e2 :: r2 =>
    if isOctDigitB e2 then
      match r2 with
      | e3 :: r3 =>
        if isOctDigitB e3 then ((((e - 48) * 8 + (e2 - 48)) * 8 + (e3 - 48)) % 256, r3)
        else ((e - 48) * 8 + (e2 - 48), r2)
      | [] => ((e - 48) * 8 + (e2 - 48), [])
    else (e - 48, r)
  | [] => (e - 48, [])

theorem decodeOctal_length (e : Nat) (r : List Nat) :
    (decodeOctal e r).2.length ≤ r.length := by
  match r with
  | [] => simp [decodeOctal]
  | e2 :: r2 =>
    simp only [decodeOctal]
    by_cases h2 : isOctDigitB e2 = true
    · simp only [h2, if_true]
      match r2 with
      | [] => simp
      | e3 :: r3 =>
        by_cases h3 : isOctDigitB e3 = true
        · simp only [h3, if_true]
          simp only [List.length_cons]
          omega
        · simp [h3]
    · simp [h2]

/-- CPython's PyBytes_DecodeEscape (the backend of codecs.escape_decode),
working on the UTF-8 bytes of the input string: backslash escapes \n (line
continuation, emits nothing), \\, \', \", \b, \f, \t, \n, \r, \v, \a, octal
escapes of up to three digits (truncated to a byte), \xHH with exactly two hex
digits (otherwise ValueError), a trailing backslash raises ValueError, and an
unrecognised escape sequence is copied verbatim (backslash included). All
other bytes are copied unchanged. -/
def escape_decode : List Nat → Except ErrKind (List Nat)
  | [] => .ok []
  | c :: rest =>
    if c = 92 then
      match rest with
      | [] => .error .valueError
      | e :: r =>
        if e = 10 then escape_decode r
        else if e = 92 then (fun bs => 92 :: bs) <$> escape_decode r
        else if e = 39 then (fun bs => 39 :: bs) <$> escape_decode r
        else if e = 34 then (fun bs => 34 :: bs) <$> escape_decode r
        else if e = 98 then (fun bs => 8 :: bs) <$> escape_decode r
        else if e = 102 then (fun bs => 12 :: bs) <$> escape_decode r
        else if e = 116 then (fun bs => 9 :: bs) <$> escape_decode r
        else if e = 110 then (fun bs => 10 :: bs) <$> escape_decode r
        else if e = 114 then (fun bs => 13 :: bs) <$> escape_decode r
        else if e = 118 then (fun bs => 11 :: bs) <$> escape_decode r
        else if e = 97 then (fun bs => 7 :: bs) <$> escape_decode r
        else if isOctDigitB e then
          (fun bs => (decodeOctal e r).1 :: bs) <$> escape_decode (decodeOctal e r).2
        else if e = 120 then
          match r with
          | h1 :: h2 :: r2 =>
            if isHexDigitB h1 && isHexDigitB h2 then
              (fun bs => (hexDigitVal h1 * 16 + hexDigitVal h2) :: bs) <$> escape_decode r2
            else .error .valueError
          | _ => .error .valueError
        else (fun bs => 92 :: e :: bs) <$> escape_decode r
    else (fun bs => c :: bs) <$> escape_decode rest
  termination_by l => l.length
  decreasing_by
    all_goals simp only [List.length_cons]
    all_goals try (have hoct := decodeOctal_length e r; omega)
    all_goals omega

/-- UTF-8 encoding of a single Unicode code point; none for surrogates and
out-of-range values (Python raises on encoding those). -/
def utf8EncodeChar (c : Nat) : Option (List Nat) :=
  if c < 128 then some [c]
  else if c < 2048 then some [192 + c / 64, 128 + c % 64]
  else if c < 65536 then
    if 55296 ≤ c ∧ c < 57344 then none
    else some [224 + c / 4096, 128 + c / 64 % 64, 128 + c % 64]
  else if c < 1114112 then
    some [240 + c / 262144, 128 + c / 4096 % 64, 128 + c / 64 % 64, 128 + c % 64]
  else none

/-- UTF-8 encoding of a string (list of code points). This is the conversion
CPython applies to a str argument of codecs.escape_decode before the byte-wise
escape decoding runs. -/
def utf8Encode : List Nat → Option (List Nat)
  | [] => some []
  | c :: rest => do
    let b ← utf8EncodeChar c
    let bs ← utf8Encode rest
    pure (b ++ bs)

/-- escaped_str_to_bytes from netlib/utils.py (Python 3 branch): a non-str
input raises ValueError; a str is handed to codecs.escape_decode, i.e. UTF-8
encoded and then escape-decoded to bytes. -/
def escaped_str_to_bytes : PyVal → Except ErrKind (List Nat)
  | .str s =>
    match utf8Encode s with
    | some bs => escape_decode bs
    | none => .error .valueError
  | _ => .error .valueError

/-- A Python value that is either a str or a bytes object: the input contract
of clean_bin, which dispatches on isinstance(s, text_type). -/
inductive StrOrBytes where
  | str (cs : List Nat)
  | bytes (bs : List Nat)
deriving DecidableEq, Repr

/-- len() of a str-or-bytes value. -/
def StrOrBytes.pyLen : StrOrBytes → Nat
  | .str cs => cs.length
  | .bytes bs => bs.length

/-- Modelled from unicodedata (Python standard library, not part of src/):
whether unicodedata.category(chr c) starts with C (control, format, surrogate,
private use, unassigned) or Z (space, line, paragraph separators). The table
below covers the control, separator, format, surrogate and private-use
ranges; the theorems in this file depend only on code point 46 (the full
stop, category Po) not being in a C or Z category. -/
def unicodeCategoryCZ (c : Nat) : Bool :=
  decide (c < 32) || decide (127 ≤ c ∧ c ≤ 160) ||
  c ∈ [5760, 8232, 8233, 8239, 8287, 12288, 173, 1564, 65279] ||
  decide (8192 ≤ c ∧ c ≤ 8207) || decide (8234 ≤ c ∧ c ≤ 8238) ||
  decide (8288 ≤ c ∧ c ≤ 8303) || decide (1536 ≤ c ∧ c ≤ 1541) ||
  decide (55296 ≤ c ∧ c ≤ 63743) || decide (65529 ≤ c ∧ c ≤ 65531) ||
  decide (983040 ≤ c)

/-- clean_bin from netlib/utils.py. For a str every character in a C* or Z*
Unicode category is replaced by "." (46) unless it is a plain space or, when
keep_spacing is set, newline, carriage return or tab; for bytes every byte
outside the printable range 31 < b < 127 is replaced by "." unless
keep_spacing is set and the byte is tab, newline or carriage return. -/
def clean_bin (s : StrOrBytes) (keep_spacing : Bool := true) : StrOrBytes :=
  match s with
  | .str cs =>
    let keep := if keep_spacing then [32, 10, 13, 9] else [32]
    .str (cs.map fun ch => if !unicodeCategoryCZ ch || ch ∈ keep then ch else 46)
  | .bytes bs =>
    let keep := if keep_spacing then [9, 10, 13] else []
    .bytes (bs.map fun ch => if (31 < ch ∧ ch < 127) ∨ ch ∈ keep then ch else 46)

/-- Hexadecimal digit string (most significant first) of a number, empty for
zero; used for Python's "{:x}" formatting. -/
def hexDigitsAux (n : Nat) : List Nat :=
  if n = 0 then [] else hexDigitsAux (n / 16) ++ [pyHexDigit (n % 16)]
  termination_by n
  decreasing_by exact Nat.div_lt_self (Nat.pos_of_ne_zero (by assumption)) (by norm_num)

/-- Python's "{:0=WIDTHx}" format: lowercase hexadecimal, zero-padded on the
left to the requested width. -/
def pyFormatHex (width n : Nat) : List Nat :=
  let ds := if n = 0 then [48] else hexDigitsAux n
  List.replicate (width - ds.length) 48 ++ ds

/-- The hex field body of a hexdump record: two-digit lowercase hex for every
byte of the chunk, joined by single spaces (32). -/
def bytesToHexPairs (part : List Nat) : List Nat :=
  List.intercalate [32] (part.map (pyFormatHex 2))

/-- Python's str.ljust: pad on the right with spaces (32) to the given width. -/
def ljust (w : Nat) (l : List Nat) : List Nat :=
  l ++ List.replicate (w - l.length) 32

/-- The chunk loop of hexdump: one record per 16-byte chunk, carrying the
running byte offset i. -/
def hexdumpChunks : List Nat → Nat → List (List Nat × List Nat × StrOrBytes)
  | [], _ => []
  | c :: rest, i =>
    (pyFormatHex 10 i, ljust 47 (bytesToHexPairs ((c :: rest).take 16)),
      clean_bin (.bytes ((c :: rest).take 16)) false) ::
      hexdumpChunks ((c :: rest).drop 16) (i + 16)
  termination_by s _ => s.length
  decreasing_by simp [List.length_drop]; omega

/-- hexdump from netlib/utils.py: for i in range(0, len(s), 16) yield the
record ("{:0=10x}".format(i), the space-joined hex pairs of s[i:i+16]
left-justified to width 47, clean_bin(s[i:i+16], False)). The generator is
modelled as the list of the records it yields. -/
def hexdump (s : List Nat) : List (List Nat × List Nat × StrOrBytes) :=
  hexdumpChunks s 0

/-- setbit from netlib/utils.py: byte | (1 << offset) when value is truthy,
byte & ~(1 << offset) otherwise, on arbitrary-precision Python integers. -/
def setbit (byte : Int) (offset : Nat) (value : Bool) : Int :=
  if value then Int.lor byte (1 <<< (offset : Int))
  else Int.land byte (Int.lnot (1 <<< (offset : Int)))

/-- getbit from netlib/utils.py: bool(byte & (1 << offset)). -/
def getbit (byte : Int) (offset : Nat) : Bool :=
  decide (Int.land byte (1 <<< (offset : Int)) ≠ 0)

/-- The bidirectional mapping utility class BiDi: names is the keyword-to-value
association (kwargs, so the names are distinct), values the reverse dict built
from it. -/
structure BiDi where
  names : List (String × Int)
  values : List (Int × String)
deriving DecidableEq, Repr

/-- Python dict insertion: replace the binding if the key is present,
otherwise append the new binding. -/
def dictInsert (d : List (Int × String)) (key : Int) (val : String) : List (Int × String) :=
  if d.any fun p => p.1 = key then d.map fun p => if p.1 = key then (key, val) else p
  else d ++ [(key, val)]

/-- The loop of BiDi.__init__: self.values[v] = k for every (k, v) of kwargs,
in order. -/
def buildValues (pairs : List (String × Int)) : List (Int × String) :=
  pairs.foldl (fun d kv => dictInsert d kv.2 kv.1) []

/-- BiDi.__init__ from netlib/utils.py: stores kwargs as names, builds the
reverse values dict, and raises ValueError("Duplicate values not allowed.")
when len(names) differs from len(values). The kwargs are passed as an ordered
list of (name, value) pairs whose names are distinct. -/
def BiDi.init (pairs : List (String × Int)) : Except ErrKind BiDi :=
  let values := buildValues pairs
  if pairs.length ≠ values.length then .error .valueError
  else .ok ⟨pairs, values⟩

/-- BiDi.__getattr__: name-to-value lookup in self.names; none models the
AttributeError raised for unknown names. -/
def BiDi.getattr (b : BiDi) (k : String) : Option Int :=
  (b.names.find? fun p => p.1 = k).map Prod.snd

/-- BiDi.get_name: value-to-name lookup, self.values.get(n, default) with the
default None modelled as none. -/
def BiDi.get_name (b : BiDi) (v : Int) : Option String :=
  (b.values.find? fun p => p.1 = v).map Prod.snd

/-- Character class of the hostname label pattern [A-Z\d-] under IGNORECASE:
letters, digits and the hyphen. -/
def labelChar (c : Nat) : Bool :=
  (65 ≤ c && c ≤ 90) || (97 ≤ c && c ≤ 122) || (48 ≤ c && c ≤ 57) || c = 45

/-- Whether the label pattern (?!-)[A-Z\d-]{1,63}(?<!-) matches the whole
list: 1 to 63 label characters, neither starting nor ending with a hyphen. -/
def labelMatchCore (x : List Nat) : Bool :=
  decide (1 ≤ x.length) && decide (x.length ≤ 63) && x.all labelChar &&
  !(x.head? = some 45) && !(x.getLast? = some 45)

/-- re.match of the compiled pattern (?!-)[A-Z\d-]{1,63}(?<!-)$ with
re.IGNORECASE against a label: the $ anchor also matches just before one
trailing newline (10). -/
def labelValid (x : List Nat) : Bool :=
  labelMatchCore x || (x.getLast? = some 10 && labelMatchCore x.dropLast)

/-- Modelled from the Python standard library idna codec (not part of src/):
host.decode("idna") succeeds on the inputs relevant here exactly when the
bytes are ASCII and no label carries the ACE prefix "xn--" (a non-ASCII byte
makes str(label, "ascii") raise inside ToUnicode, and an ACE-prefixed label
goes through punycode decoding, which this model conservatively treats as
failing). -/
def idnaDecodable (host : List Nat) : Bool :=
  host.all (fun c => c < 128) &&
  (host.splitOn 46).all fun l => !([120, 110, 45, 45].isPrefixOf l)

/-- Python 3 comparison host[-1] == b".": the left side is an int and the
right side a bytes object, so == compares values of different types and is
always False. -/
def pyIntEqBytes (_ : Nat) (_ : List Nat) : Bool :=
  false

/-- is_valid_host from netlib/utils.py, under Python 3 semantics: the idna
decodability guard, the 255-byte length cap, the (ineffective, see
pyIntEqBytes) trailing-dot strip, and the per-label regex over the dot-split
labels. -/
def is_valid_host (host : List Nat) : Bool :=
  if !idnaDecodable host then false
  else if host.length > 255 then false
  else
    let host' := if pyIntEqBytes (host.getLastD 0) [46] then host.dropLast else host
    (host'.splitOn 46).all labelValid

/-- Number of occurrences of the character c in a string that are not part of
a backslash escape: a backslash (92) together with the character after it is
skipped, every other position is inspected directly. -/
def countUnescaped (c : Nat) : List Nat → Nat
  | [] => 0
  | x :: rest =>
    if x = 92 then
      match rest with
      | [] => 0
      | _ :: rest2 => countUnescaped c rest2
    else (if x = c then 1 else 0) + countUnescaped c rest
  termination_by l => l.length
  decreasing_by all_goals (simp only [List.length_cons]; omega)

/-- Number of occurrences of the character c that are backslash-escaped, i.e.
appear immediately after an escaping backslash (92). -/
def countEscaped (c : Nat) : List Nat → Nat
  | [] => 0
  | x :: rest =>
    if x = 92 then
      match rest with
      | [] => 0
      | y :: rest2 => (if y = c then 1 else 0) + countEscaped c rest2
    else countEscaped c rest
  termination_by l => l.length
  decreasing_by all_goals (simp only [List.length_cons]; omega)

theorem reprQuote_cons_dquote (data : List Nat) : reprQuote (34 :: data) = 39 := by
  simp [reprQuote]

/-- Normal form of the encoder on bytes input: the per-byte escapes under the
single-quote convention, concatenated. -/
theorem bytes_to_escaped_str_eq (data : List Nat) :
    bytes_to_escaped_str (.bytes data) = .ok ((data.map (reprEscapeByte 39)).flatten) := by
  have h34 : reprEscapeByte 39 34 = [34] := rfl
  simp only [bytes_to_escaped_str, pyBytesRepr, reprQuote_cons_dquote, List.map_cons,
    List.flatten_cons, h34]
  simp [List.dropWhile, List.dropLast_concat]

/-- Facts about the lowercase hex digit characters of values below 16. -/
theorem pyHexDigit_facts : ∀ d < 16,
    isHexDigitB (pyHexDigit d) = true ∧ hexDigitVal (pyHexDigit d) = d ∧
    48 ≤ pyHexDigit d ∧ pyHexDigit d ≤ 102 ∧
    pyHexDigit d ≠ 32 ∧ pyHexDigit d ≠ 34 ∧ pyHexDigit d ≠ 39 ∧ pyHexDigit d ≠ 92 := by
  decide

/-- Exhaustive description of the escape of one byte under the single-quote
convention: quote and backslash escapes, the three whitespace escapes, hex
escapes, and printable pass-through. -/
theorem reprEscapeByte_cases (b : Nat) :
    (b = 39 ∧ reprEscapeByte 39 b = [92, 39])
  ∨ (b = 92 ∧ reprEscapeByte 39 b = [92, 92])
  ∨ (b = 9 ∧ reprEscapeByte 39 b = [92, 116])
  ∨ (b = 10 ∧ reprEscapeByte 39 b = [92, 110])
  ∨ (b = 13 ∧ reprEscapeByte 39 b = [92, 114])
  ∨ ((b < 32 ∨ 127 ≤ b) ∧ b ≠ 9 ∧ b ≠ 10 ∧ b ≠ 13 ∧
      reprEscapeByte 39 b = [92, 120, pyHexDigit (b / 16), pyHexDigit (b % 16)])
  ∨ (32 ≤ b ∧ b ≤ 126 ∧ b ≠ 39 ∧ b ≠ 92 ∧ reprEscapeByte 39 b = [b]) := by
  by_cases h39 : b = 39
  · exact Or.inl ⟨h39, by rw [h39]; rfl⟩
  by_cases h92 : b = 92
  · exact Or.inr (Or.inl ⟨h92, by rw [h92]; rfl⟩)
  by_cases h9 : b = 9
  · exact Or.inr (Or.inr (Or.inl ⟨h9, by rw [h9]; rfl⟩))
  by_cases h10 : b = 10
  · exact Or.inr (Or.inr (Or.inr (Or.inl ⟨h10, by rw [h10]; rfl⟩)))
  by_cases h13 : b = 13
  · exact Or.inr (Or.inr (Or.inr (Or.inr (Or.inl ⟨h13, by rw [h13]; rfl⟩))))
  by_cases hr : b < 32 ∨ 127 ≤ b
  · refine Or.inr (Or.inr (Or.inr (Or.inr (Or.inr (Or.inl ⟨hr, h9, h10, h13, ?_⟩)))))
    simp [reprEscapeByte, h39, h92, h9, h10, h13, hr]
  · refine Or.inr (Or.inr (Or.inr (Or.inr (Or.inr (Or.inr ⟨by omega, by omega, h39, h92, ?_⟩)))))
    simp [reprEscapeByte, h39, h92, h9, h10, h13, hr]

/-- Every character emitted by the per-byte escape is printable ASCII. -/
theorem reprEscapeByte_printable (b : Nat) (hb : b < 256) :
    ∀ c ∈ reprEscapeByte 39 b, 32 ≤ c ∧ c ≤ 126 := by
  rcases reprEscapeByte_cases b with ⟨hv, he⟩ | ⟨hv, he⟩ | ⟨hv, he⟩ | ⟨hv, he⟩ | ⟨hv, he⟩ |
      ⟨hr, h9, h10, h13, he⟩ | ⟨hge, hle, h39, h92, he⟩ <;> rw [he]
  · decide
  · decide
  · decide
  · decide
  · decide
  · obtain ⟨-, -, hlo1, hhi1, -⟩ := pyHexDigit_facts (b / 16) (by omega)
    obtain ⟨-, -, hlo2, hhi2, -⟩ := pyHexDigit_facts (b % 16) (by omega)
    intro c hc
    simp only [List.mem_cons, List.mem_singleton] at hc
    rcases hc with rfl | rfl | rfl | hc
    · omega
    · omega
    · omega
    · simp at hc
      omega
  · intro c hc
    simp only [List.mem_singleton] at hc
    omega

/-- Decoding one escaped byte followed by anything emits exactly that byte. -/
theorem escape_decode_escByte (b : Nat) (hb : b < 256) (rest : List Nat) :
    escape_decode (reprEscapeByte 39 b ++ rest) = (fun bs => b :: bs) <$> escape_decode rest := by
  rcases reprEscapeByte_cases b with ⟨hv, he⟩ | ⟨hv, he⟩ | ⟨hv, he⟩ | ⟨hv, he⟩ | ⟨hv, he⟩ |
      ⟨hr, h9, h10, h13, he⟩ | ⟨hge, hle, h39, h92, he⟩ <;> rw [he] <;> subst_vars
  · rw [escape_decode.eq_def]; simp
  · rw [escape_decode.eq_def]; simp
  · rw [escape_decode.eq_def]; simp
  · rw [escape_decode.eq_def]; simp
  · rw [escape_decode.eq_def]; simp
  · obtain ⟨hx1, hv1, -⟩ := pyHexDigit_facts (b / 16) (by omega)
    obtain ⟨hx2, hv2, -⟩ := pyHexDigit_facts (b % 16) (by omega)
    have hdm : hexDigitVal (pyHexDigit (b / 16)) * 16 + hexDigitVal (pyHexDigit (b % 16)) = b := by
      rw [hv1, hv2]; omega
    rw [escape_decode.eq_def]
    simp [isOctDigitB, hx1, hx2, hdm]
  · rw [List.singleton_append, escape_decode.eq_def]
    simp [h92]

/-- Decoding the concatenated escapes of a byte list recovers the list. -/
theorem escape_decode_flatten (data : List Nat) (hb : ∀ b ∈ data, b < 256) :
    escape_decode ((data.map (reprEscapeByte 39)).flatten) = .ok data := by
  induction data with
  | nil => rw [List.map_nil, List.flatten_nil, escape_decode.eq_def]
  | cons b bs ih =>
    simp only [List.map_cons, List.flatten_cons]
    rw [escape_decode_escByte b (hb b (by simp)) _, ih (fun x hx => hb x (by simp [hx]))]
    rfl

/-- UTF-8 encoding is the identity on a list of ASCII code points. -/
theorem utf8Encode_ascii (l : List Nat) (h : ∀ c ∈ l, c < 128) : utf8Encode l = some l := by
  induction l with
  | nil => rfl
  | cons c rest ih =>
    have hc : c < 128 := h c (by simp)
    simp [utf8Encode, utf8EncodeChar, hc, ih (fun x hx => h x (by simp [hx]))]

/-- C1: for every byte buffer B (including the empty buffer, a buffer with all
256 byte values, and buffers containing the single-quote byte 0x27),
escaped_str_to_bytes (bytes_to_escaped_str B) = B: decoding is a left inverse
of encoding. -/
theorem escape_codec_roundtrip (data : List Nat) (hb : ∀ b ∈ data, b < 256) :
    (bytes_to_escaped_str (.bytes data)).bind (fun s => escaped_str_to_bytes (.str s)) =
      .ok data := by
  rw [bytes_to_escaped_str_eq]
  have hchars : ∀ c ∈ (data.map (reprEscapeByte 39)).flatten, c < 128 := by
    intro c hc
    rw [List.mem_flatten] at hc
    obtain ⟨l, hl, hcl⟩ := hc
    rw [List.mem_map] at hl
    obtain ⟨b, hbd, rfl⟩ := hl
    have := reprEscapeByte_printable b (hb b hbd) c hcl
    omega
  show escaped_str_to_bytes (.str ((data.map (reprEscapeByte 39)).flatten)) = .ok data
  simp only [escaped_str_to_bytes, utf8Encode_ascii _ hchars]
  exact escape_decode_flatten data hb

theorem escape_codec_roundtrip_witness :
    (∀ b ∈ [39, 34, 92, 0, 255, 10], b < 256) ∧
    (bytes_to_escaped_str (.bytes [39, 34, 92, 0, 255, 10])).bind
      (fun s => escaped_str_to_bytes (.str s)) = .ok [39, 34, 92, 0, 255, 10] :=
  ⟨by decide, escape_codec_roundtrip [39, 34, 92, 0, 255, 10] (by decide)⟩

/-- C9: every character of the encoder's output for a byte buffer is printable
ASCII (code point between 32 and 126): bytes outside that range, including
everything at or above 0x80, are rendered as backslash escapes. -/
theorem bytes_to_escaped_str_printable_ascii (data : List Nat) (hb : ∀ b ∈ data, b < 256) :
    ∀ s, bytes_to_escaped_str (.bytes data) = .ok s → ∀ c ∈ s, 32 ≤ c ∧ c ≤ 126 := by
  intro s hs c hc
  rw [bytes_to_escaped_str_eq] at hs
  cases hs
  rw [List.mem_flatten] at hc
  obtain ⟨l, hl, hcl⟩ := hc
  rw [List.mem_map] at hl
  obtain ⟨b, hbd, rfl⟩ := hl
  exact reprEscapeByte_printable b (hb b hbd) c hcl

theorem bytes_to_escaped_str_printable_ascii_witness :
    (∀ b ∈ [39, 0, 200], b < 256) ∧
    (∀ c ∈ [92, 39, 92, 120, 48, 48, 92, 120, 99, 56], 32 ≤ c ∧ c ≤ 126) :=
  ⟨by decide,
    bytes_to_escaped_str_printable_ascii [39, 0, 200] (by decide)
      [92, 39, 92, 120, 48, 48, 92, 120, 99, 56] (by rw [bytes_to_escaped_str_eq]; rfl)⟩

theorem countUnescaped_nil (c : Nat) : countUnescaped c [] = 0 := by
  rw [countUnescaped.eq_def]

theorem countEscaped_nil (c : Nat) : countEscaped c [] = 0 := by
  rw [countEscaped.eq_def]

theorem countUnescaped_cons_ne (c x : Nat) (hx : x ≠ 92) (rest : List Nat) :
    countUnescaped c (x :: rest) = (if x = c then 1 else 0) + countUnescaped c rest := by
  rw [countUnescaped.eq_def]; simp [hx]

theorem countUnescaped_cons_pair (c x : Nat) (rest : List Nat) :
    countUnescaped c (92 :: x :: rest) = countUnescaped c rest := by
  rw [countUnescaped.eq_def]; simp

theorem countEscaped_cons_ne (c x : Nat) (hx : x ≠ 92) (rest : List Nat) :
    countEscaped c (x :: rest) = countEscaped c rest := by
  rw [countEscaped.eq_def]; simp [hx]

theorem countEscaped_cons_pair (c x : Nat) (rest : List Nat) :
    countEscaped c (92 :: x :: rest) = (if x = c then 1 else 0) + countEscaped c rest := by
  rw [countEscaped.eq_def]; simp

theorem countUnescaped_39_escByte (b : Nat) (hb : b < 256) (rest : List Nat) :
    countUnescaped 39 (reprEscapeByte 39 b ++ rest) = countUnescaped 39 rest := by
  rcases reprEscapeByte_cases b with ⟨hv, he⟩ | ⟨hv, he⟩ | ⟨hv, he⟩ | ⟨hv, he⟩ | ⟨hv, he⟩ |
      ⟨hr, h9, h10, h13, he⟩ | ⟨hge, hle, h39, h92, he⟩ <;> rw [he]
  · simp [countUnescaped_cons_pair]
  · simp [countUnescaped_cons_pair]
  · simp [countUnescaped_cons_pair]
  · simp [countUnescaped_cons_pair]
  · simp [countUnescaped_cons_pair]
  · obtain ⟨-, -, -, -, -, -, h391, h921⟩ := pyHexDigit_facts (b / 16) (by omega)
    obtain ⟨-, -, -, -, -, -, h392, h922⟩ := pyHexDigit_facts (b % 16) (by omega)
    simp only [List.cons_append, List.nil_append]
    rw [countUnescaped_cons_pair, countUnescaped_cons_ne _ _ h921,
      countUnescaped_cons_ne _ _ h922]
    simp [h391, h392]
  · simp only [List.singleton_append]
    rw [countUnescaped_cons_ne _ _ h92]
    simp [h39]

theorem countUnescaped_34_escByte (b : Nat) (hb : b < 256) (rest : List Nat) :
    countUnescaped 34 (reprEscapeByte 39 b ++ rest) =
      (if b = 34 then 1 else 0) + countUnescaped 34 rest := by
  rcases reprEscapeByte_cases b with ⟨hv, he⟩ | ⟨hv, he⟩ | ⟨hv, he⟩ | ⟨hv, he⟩ | ⟨hv, he⟩ |
      ⟨hr, h9, h10, h13, he⟩ | ⟨hge, hle, h39, h92, he⟩ <;> rw [he] <;> subst_vars
  · simp [countUnescaped_cons_pair]
  · simp [countUnescaped_cons_pair]
  · simp [countUnescaped_cons_pair]
  · simp [countUnescaped_cons_pair]
  · simp [countUnescaped_cons_pair]
  · obtain ⟨-, -, -, -, -, h341, -, h921⟩ := pyHexDigit_facts (b / 16) (by omega)
    obtain ⟨-, -, -, -, -, h342, -, h922⟩ := pyHexDigit_facts (b % 16) (by omega)
    have hb34 : b ≠ 34 := by omega
    simp only [List.cons_append, List.nil_append]
    rw [countUnescaped_cons_pair, countUnescaped_cons_ne _ _ h921,
      countUnescaped_cons_ne _ _ h922]
    simp [h341, h342, hb34]
  · simp only [List.singleton_append]
    rw [countUnescaped_cons_ne _ _ h92]

theorem countEscaped_39_escByte (b : Nat) (hb : b < 256) (rest : List Nat) :
    countEscaped 39 (reprEscapeByte 39 b ++ rest) =
      (if b = 39 then 1 else 0) + countEscaped 39 rest := by
  rcases reprEscapeByte_cases b with ⟨hv, he⟩ | ⟨hv, he⟩ | ⟨hv, he⟩ | ⟨hv, he⟩ | ⟨hv, he⟩ |
      ⟨hr, h9, h10, h13, he⟩ | ⟨hge, hle, h39, h92, he⟩ <;> rw [he] <;> subst_vars
  · simp [countEscaped_cons_pair]
  · simp [countEscaped_cons_pair]
  · simp [countEscaped_cons_pair]
  · simp [countEscaped_cons_pair]
  · simp [countEscaped_cons_pair]
  · obtain ⟨-, -, -, -, -, -, h391, h921⟩ := pyHexDigit_facts (b / 16) (by omega)
    obtain ⟨-, -, -, -, -, -, h392, h922⟩ := pyHexDigit_facts (b % 16) (by omega)
    have hb39 : b ≠ 39 := by omega
    simp only [List.cons_append, List.nil_append]
    rw [countEscaped_cons_pair, countEscaped_cons_ne _ _ h921, countEscaped_cons_ne _ _ h922]
    simp [hb39]
  · simp only [List.singleton_append]
    rw [countEscaped_cons_ne _ _ h92]
    simp [h39]

theorem counts_flatten (data : List Nat) (hb : ∀ b ∈ data, b < 256) :
    countUnescaped 39 ((data.map (reprEscapeByte 39)).flatten) = 0 ∧
    countEscaped 39 ((data.map (reprEscapeByte 39)).flatten) = data.count 39 ∧
    countUnescaped 34 ((data.map (reprEscapeByte 39)).flatten) = data.count 34 := by
  induction data with
  | nil => simp [countUnescaped_nil, countEscaped_nil]
  | cons b bs ih =>
    obtain ⟨ih1, ih2, ih3⟩ := ih (fun x hx => hb x (by simp [hx]))
    have hbb : b < 256 := hb b (by simp)
    simp only [List.map_cons, List.flatten_cons]
    refine ⟨?_, ?_, ?_⟩
    · rw [countUnescaped_39_escByte b hbb, ih1]
    · rw [countEscaped_39_escByte b hbb, ih2, List.count_cons]
      by_cases h : b = 39
      all_goals simp [h]
      all_goals omega
    · rw [countUnescaped_34_escByte b hbb, ih3, List.count_cons]
      by_cases h : b = 34
      all_goals simp [h]
      all_goals omega

/-- C2: the encoder's output for a byte buffer contains no unescaped single
quote (every single-quote byte 0x27 of the input appears backslash-escaped,
one escape per occurrence), and when the input contains the double-quote byte
0x22 the output contains an unescaped double quote. -/
theorem bytes_to_escaped_str_quote_safety (data : List Nat) (hb : ∀ b ∈ data, b < 256) :
    ∀ s, bytes_to_escaped_str (.bytes data) = .ok s →
      countUnescaped 39 s = 0 ∧
      countEscaped 39 s = data.count 39 ∧
      (34 ∈ data → 0 < countUnescaped 34 s) := by
  intro s hs
  rw [bytes_to_escaped_str_eq] at hs
  cases hs
  obtain ⟨h1, h2, h3⟩ := counts_flatten data hb
  refine ⟨h1, h2, fun hm => ?_⟩
  rw [h3]
  exact List.count_pos_iff.mpr hm

theorem bytes_to_escaped_str_quote_safety_witness :
    (∀ b ∈ [39, 34, 0], b < 256) ∧
    (countUnescaped 39 [92, 39, 34, 92, 120, 48, 48] = 0 ∧
     countEscaped 39 [92, 39, 34, 92, 120, 48, 48] = List.count 39 [39, 34, 0] ∧
     (34 ∈ [39, 34, 0] → 0 < countUnescaped 34 [92, 39, 34, 92, 120, 48, 48])) :=
  ⟨by decide, bytes_to_escaped_str_quote_safety [39, 34, 0] (by decide) _
      (by rw [bytes_to_escaped_str_eq]; rfl)⟩

/-- C3 counterexample: on a non-bytes input (the str "hi") the encoder raises
the ValueError kind, not the TypeError kind the claim demands. -/
theorem bytes_to_escaped_str_not_typeError :
    bytes_to_escaped_str (.str [104, 105]) = .error .valueError ∧
    ErrKind.valueError ≠ ErrKind.typeError :=
  ⟨rfl, by decide⟩

/-- C3 (amended): for every input that is not a byte sequence,
bytes_to_escaped_str raises a ValueError-kind error (not TypeError), and for
every input that is not a text string, escaped_str_to_bytes raises a
ValueError-kind error; in both cases no output is produced. -/
theorem escape_codec_wrong_type_valueError :
    (∀ v : PyVal, (∀ bs, v ≠ .bytes bs) → bytes_to_escaped_str v = .error .valueError) ∧
    (∀ v : PyVal, (∀ cs, v ≠ .str cs) → escaped_str_to_bytes v = .error .valueError) := by
  constructor
  · intro v hv
    cases v with
    | bytes bs => exact absurd rfl (hv bs)
    | str cs => rfl
    | int n => rfl
    | pyNone => rfl
  · intro v hv
    cases v with
    | str cs => exact absurd rfl (hv cs)
    | bytes bs => rfl
    | int n => rfl
    | pyNone => rfl

theorem escape_codec_wrong_type_valueError_witness :
    bytes_to_escaped_str (.int 0) = .error .valueError ∧
    escaped_str_to_bytes (.int 0) = .error .valueError :=
  ⟨escape_codec_wrong_type_valueError.1 (.int 0) (fun _ h => PyVal.noConfusion h),
   escape_codec_wrong_type_valueError.2 (.int 0) (fun _ h => PyVal.noConfusion h)⟩

/-- C4: clean_bin performs one-to-one substitution: for text and binary input
and either keep_spacing flag, the output has the length of the input. -/
theorem clean_bin_length_preserved (x : StrOrBytes) (ks : Bool) :
    (clean_bin x ks).pyLen = x.pyLen := by
  cases x <;> simp [clean_bin, StrOrBytes.pyLen]

/-- C5: clean_bin is idempotent: cleaning an already cleaned value (same
keep_spacing flag) changes nothing, for text and binary input alike. -/
theorem clean_bin_idempotent (x : StrOrBytes) (ks : Bool) :
    clean_bin (clean_bin x ks) ks = clean_bin x ks := by
  cases x with
  | str cs =>
    simp only [clean_bin, List.map_map]
    congr 1
    apply List.map_congr_left
    intro ch hch
    simp only [Function.comp_apply]
    split_ifs <;> rfl
  | bytes bs =>
    simp only [clean_bin, List.map_map]
    congr 1
    apply List.map_congr_left
    intro ch hch
    simp only [Function.comp_apply]
    split_ifs <;> rfl

theorem hexDigitsAux_mem (n : Nat) : ∀ c ∈ hexDigitsAux n, 48 ≤ c ∧ c ≤ 102 := by
  induction n using Nat.strong_induction_on with
  | _ n ih =>
    intro c hc
    rw [hexDigitsAux.eq_def] at hc
    by_cases h0 : n = 0
    · simp [h0] at hc
    · rw [if_neg h0] at hc
      rcases List.mem_append.mp hc with h | h
      · exact ih (n / 16) (Nat.div_lt_self (Nat.pos_of_ne_zero h0) (by norm_num)) c h
      · have hc' : c = pyHexDigit (n % 16) := by simpa using h
        subst hc'
        obtain ⟨-, -, hlo, hhi, -⟩ := pyHexDigit_facts (n % 16) (Nat.mod_lt _ (by norm_num))
        exact ⟨hlo, hhi⟩

theorem hexDigitsAux_length_le (k : Nat) : ∀ n < 16 ^ k, (hexDigitsAux n).length ≤ k := by
  induction k with
  | zero =>
    intro n hn
    have h0 : n = 0 := by simpa [Nat.lt_one_iff] using hn
    subst h0
    rw [hexDigitsAux.eq_def]
    simp
  | succ k ih =>
    intro n hn
    rw [hexDigitsAux.eq_def]
    by_cases h0 : n = 0
    · simp [h0]
    · rw [if_neg h0]
      simp only [List.length_append, List.length_cons, List.length_nil]
      have hdiv : n / 16 < 16 ^ k := by
        rw [Nat.div_lt_iff_lt_mul (by norm_num : (0 : Nat) < 16)]
        calc n < 16 ^ (k + 1) := hn
          _ = 16 ^ k * 16 := by rw [pow_succ]
      have := ih (n / 16) hdiv
      omega

theorem pyFormatHex_length (w n : Nat) (hn : n < 16 ^ w) (hw : 1 ≤ w) :
    (pyFormatHex w n).length = w := by
  simp only [pyFormatHex]
  by_cases h0 : n = 0
  · simp [h0]
    omega
  · rw [if_neg h0]
    have := hexDigitsAux_length_le w n hn
    simp only [List.length_append, List.length_replicate]
    omega

theorem pyFormatHex_mem (w n : Nat) : ∀ c ∈ pyFormatHex w n, 48 ≤ c ∧ c ≤ 102 := by
  intro c hc
  simp only [pyFormatHex] at hc
  rcases List.mem_append.mp hc with h | h
  · have := (List.mem_replicate.mp h).2
    omega
  · by_cases h0 : n = 0
    · rw [if_pos h0] at h
      simp at h
      omega
    · rw [if_neg h0] at h
      exact hexDigitsAux_mem n c h

theorem intercalate_nil (s : List Nat) : List.intercalate s [] = [] := by
  simp [List.intercalate]

theorem intercalate_single (s x : List Nat) : List.intercalate s [x] = x := by
  simp [List.intercalate, List.intersperse]

theorem intercalate_cons2 (s x y : List Nat) (zs : List (List Nat)) :
    List.intercalate s (x :: y :: zs) = x ++ s ++ List.intercalate s (y :: zs) := by
  simp [List.intercalate, List.intersperse]

theorem bytesToHexPairs_cons2 (b c : Nat) (t : List Nat) :
    bytesToHexPairs (b :: c :: t) = pyFormatHex 2 b ++ [32] ++ bytesToHexPairs (c :: t) := by
  simp only [bytesToHexPairs, List.map_cons]
  rw [intercalate_cons2]

theorem filter_bytesToHexPairs (part : List Nat) :
    (bytesToHexPairs part).filter (fun ch => ch != 32) = (part.map (pyFormatHex 2)).flatten := by
  induction part with
  | nil => rfl
  | cons b t ih =>
    cases t with
    | nil =>
      rw [bytesToHexPairs, List.map_cons, List.map_nil, intercalate_single]
      simp only [List.map_cons, List.map_nil, List.flatten_cons, List.flatten_nil,
        List.append_nil]
      refine List.filter_eq_self.mpr ?_
      intro a ha
      have := pyFormatHex_mem 2 b a ha
      simp only [bne_iff_ne, ne_eq]
      omega
    | cons c t2 =>
      rw [bytesToHexPairs_cons2, List.filter_append, List.filter_append]
      rw [List.filter_eq_self.mpr (fun a ha => by
            have := pyFormatHex_mem 2 b a ha
            simp only [bne_iff_ne, ne_eq]
            omega)]
      rw [(by rfl : List.filter (fun ch => ch != 32) [32] = []), ih, List.append_nil]
      simp [List.flatten_cons]

theorem filter_hexfield (part : List Nat) :
    (ljust 47 (bytesToHexPairs part)).filter (fun ch => ch != 32) =
      (part.map (pyFormatHex 2)).flatten := by
  rw [ljust, List.filter_append, filter_bytesToHexPairs]
  have hrep : List.filter (fun ch => ch != 32)
      (List.replicate (47 - (bytesToHexPairs part).length) 32) = [] :=
    List.filter_eq_nil_iff.mpr (fun a ha => by
      have := (List.mem_replicate.mp ha).2
      simp [this])
  rw [hrep, List.append_nil]

theorem bytesToHexPairs_length_le (b : Nat) (t : List Nat) (hb : ∀ x ∈ b :: t, x < 256) :
    (bytesToHexPairs (b :: t)).length ≤ 3 * t.length + 2 := by
  have hpow : (16 : Nat) ^ 2 = 256 := by norm_num
  induction t generalizing b with
  | nil =>
    rw [bytesToHexPairs, List.map_cons, List.map_nil, intercalate_single]
    rw [pyFormatHex_length 2 b (by have := hb b (by simp); omega) (by norm_num)]
    simp
  | cons c t2 ih =>
    rw [bytesToHexPairs_cons2]
    simp only [List.length_append, List.length_cons, List.length_nil]
    have h2 := pyFormatHex_length 2 b (by have := hb b (by simp); omega) (by norm_num)
    have h3 := ih c (fun x hx => hb x (by simp at hx ⊢; tauto))
    omega

theorem hexfield_length (part : List Nat) (hb : ∀ b ∈ part, b < 256)
    (hl : part.length ≤ 16) : (ljust 47 (bytesToHexPairs part)).length = 47 := by
  have hle : (bytesToHexPairs part).length ≤ 47 := by
    cases part with
    | nil => simp [bytesToHexPairs, intercalate_nil]
    | cons b t =>
      have := bytesToHexPairs_length_le b t hb
      simp only [List.length_cons] at hl
      omega
  simp only [ljust, List.length_append, List.length_replicate]
  omega

theorem hexdumpChunks_nil (i : Nat) : hexdumpChunks [] i = [] := by
  rw [hexdumpChunks.eq_def]

theorem hexdumpChunks_cons (c : Nat) (rest : List Nat) (i : Nat) :
    hexdumpChunks (c :: rest) i =
      (pyFormatHex 10 i, ljust 47 (bytesToHexPairs ((c :: rest).take 16)),
        clean_bin (.bytes ((c :: rest).take 16)) false) ::
        hexdumpChunks ((c :: rest).drop 16) (i + 16) := by
  rw [hexdumpChunks.eq_def]

theorem hexdumpChunks_spec (n : Nat) : ∀ (s : List Nat) (i : Nat), s.length ≤ n →
    (hexdumpChunks s i).length = (s.length + 15) / 16 ∧
    (hexdumpChunks s i).map (fun r => r.1) =
      (List.range ((s.length + 15) / 16)).map (fun k => pyFormatHex 10 (i + 16 * k)) ∧
    ((∀ b ∈ s, b < 256) → ∀ r ∈ hexdumpChunks s i, (r.2.1).length = 47) ∧
    ((hexdumpChunks s i).map (fun r => (r.2.1).filter (fun ch => ch != 32))).flatten =
      (s.map (pyFormatHex 2)).flatten := by
  induction n with
  | zero =>
    intro s i hs
    have h0 : s = [] := List.eq_nil_of_length_eq_zero (by omega)
    subst h0
    refine ⟨by simp [hexdumpChunks_nil], by simp [hexdumpChunks_nil], ?_,
      by simp [hexdumpChunks_nil]⟩
    intro hb r hr
    rw [hexdumpChunks_nil] at hr
    simp at hr
  | succ n ih =>
    intro s i hs
    cases s with
    | nil =>
      refine ⟨by simp [hexdumpChunks_nil], by simp [hexdumpChunks_nil], ?_,
        by simp [hexdumpChunks_nil]⟩
      intro hb r hr
      rw [hexdumpChunks_nil] at hr
      simp at hr
    | cons c rest =>
      obtain ⟨ihA, ihB, ihC, ihD⟩ := ih ((c :: rest).drop 16) (i + 16)
        (by simp only [List.length_drop, List.length_cons] at hs ⊢; omega)
      have hm : ((c :: rest).length + 15) / 16 = (((c :: rest).drop 16).length + 15) / 16 + 1 := by
        simp only [List.length_drop, List.length_cons]
        omega
      rw [hexdumpChunks_cons]
      refine ⟨?_, ?_, ?_, ?_⟩
      · rw [List.length_cons, ihA, hm]
      · rw [List.map_cons, hm, List.range_succ_eq_map, List.map_cons, List.map_map]
        refine congrArg₂ List.cons (by norm_num) ?_
        rw [ihB]
        apply List.map_congr_left
        intro k hk
        simp only [Function.comp_apply]
        congr 1
        omega
      · intro hb r hr
        rcases List.mem_cons.mp hr with rfl | hr
        · exact hexfield_length _ (fun b hbm => hb b (List.take_subset 16 _ hbm))
            (List.length_take_le _ _)
        · exact ihC (fun b hbm => hb b (List.drop_subset 16 _ hbm)) r hr
      · conv_rhs => rw [← List.take_append_drop 16 (c :: rest), List.map_append,
          List.flatten_append]
        simp only [List.map_cons, List.flatten_cons]
        rw [filter_hexfield, ihD]

/-- C6: hexdump yields exactly ceil(len(s)/16) records; the k-th record's
offset field is the zero-padded 10-digit lowercase-hex rendering of the
chunk's starting index 16k (so the records are in ascending offset order);
every hex field is padded to width 47; and stripping the spaces from the hex
fields and concatenating reconstructs the two-digit lowercase hex rendering of
the whole buffer. -/
theorem hexdump_records_spec (s : List Nat) (hb : ∀ b ∈ s, b < 256)
    (hs : s.length ≤ 16 ^ 10) :
    (hexdump s).length = (s.length + 15) / 16 ∧
    (hexdump s).map (fun r => r.1) =
      (List.range ((s.length + 15) / 16)).map (fun k => pyFormatHex 10 (16 * k)) ∧
    (∀ r ∈ hexdump s, (r.1).length = 10 ∧ (r.2.1).length = 47) ∧
    ((hexdump s).map (fun r => (r.2.1).filter (fun ch => ch != 32))).flatten =
      (s.map (pyFormatHex 2)).flatten := by
  obtain ⟨hA, hB, hC, hD⟩ := hexdumpChunks_spec s.length s 0 le_rfl
  rw [hexdump]
  have hB' : (hexdumpChunks s 0).map (fun r => r.1) =
      (List.range ((s.length + 15) / 16)).map (fun k => pyFormatHex 10 (16 * k)) := by
    rw [hB]
    apply List.map_congr_left
    intro k hk
    congr 1
    omega
  refine ⟨hA, hB', ?_, hD⟩
  intro r hr
  refine ⟨?_, hC hb r hr⟩
  have h1 : r.1 ∈ (hexdumpChunks s 0).map (fun r => r.1) := List.mem_map_of_mem _ hr
  rw [hB'] at h1
  obtain ⟨k, hk, hrk⟩ := List.mem_map.mp h1
  rw [List.mem_range] at hk
  rw [← hrk]
  have hpow : (16 : Nat) ^ 10 = 1099511627776 := by norm_num
  refine pyFormatHex_length 10 (16 * k) (by omega) (by norm_num)

theorem hexdump_records_spec_witness :
    (∀ b ∈ [65, 0, 255], b < 256) ∧ ([65, 0, 255] : List Nat).length ≤ 16 ^ 10 ∧
    ((hexdump [65, 0, 255]).length = (([65, 0, 255] : List Nat).length + 15) / 16 ∧
     (hexdump [65, 0, 255]).map (fun r => r.1) =
       (List.range ((([65, 0, 255] : List Nat).length + 15) / 16)).map
         (fun k => pyFormatHex 10 (16 * k)) ∧
     (∀ r ∈ hexdump [65, 0, 255], (r.1).length = 10 ∧ (r.2.1).length = 47) ∧
     ((hexdump [65, 0, 255]).map (fun r => (r.2.1).filter (fun ch => ch != 32))).flatten =
       (([65, 0, 255] : List Nat).map (pyFormatHex 2)).flatten) :=
  ⟨by decide, by norm_num,
    hexdump_records_spec [65, 0, 255] (by decide) (by norm_num)⟩

/-- C7: behaviour of is_valid_host under Python 3. The bytes b"example.com."
(trailing dot) are REJECTED, because the source's host[-1] == b"." compares an
int with a bytes object, which is always False in Python 3, so the trailing
dot is never stripped and the empty final label fails the label regex; the
hostname without the trailing dot is accepted, and b"-bad-.com" is rejected
as the claim states. -/
theorem is_valid_host_py3_behavior :
    is_valid_host [101, 120, 97, 109, 112, 108, 101, 46, 99, 111, 109, 46] = false ∧
    is_valid_host [101, 120, 97, 109, 112, 108, 101, 46, 99, 111, 109] = true ∧
    is_valid_host [45, 98, 97, 100, 45, 46, 99, 111, 109] = false := by
  decide

theorem int_mask_testBit (o k : Nat) : ((2 ^ o : Nat) : Int).testBit k = decide (o = k) := by
  show Nat.testBit (2 ^ o) k = decide (o = k)
  by_cases h : o = k
  · subst h
    simp [Nat.testBit_two_pow_self]
  · simp [Nat.testBit_two_pow_of_ne h, h]

theorem getbit_eq_testBit (b : Int) (o : Nat) : getbit b o = b.testBit o := by
  rw [getbit, Int.one_shiftLeft]
  cases b with
  | ofNat m =>
    have h1 : Int.land (Int.ofNat m) ((2 ^ o : Nat) : Int) = ((m &&& 2 ^ o : Nat) : Int) := rfl
    rw [h1, Nat.and_two_pow]
    have h2 : Int.testBit (Int.ofNat m) o = Nat.testBit m o := rfl
    rw [h2]
    cases h : m.testBit o
    · simp
    · have hp : 0 < 2 ^ o := Nat.two_pow_pos o
      simp [Int.natCast_eq_zero]
  | negSucc m =>
    have h1 : Int.land (Int.negSucc m) ((2 ^ o : Nat) : Int) =
        ((Nat.ldiff (2 ^ o) m : Nat) : Int) := rfl
    rw [h1]
    have h2 : Int.testBit (Int.negSucc m) o = !(Nat.testBit m o) := rfl
    rw [h2]
    cases h : m.testBit o
    · have hne : Nat.ldiff (2 ^ o) m ≠ 0 := fun h0 => by
        have hbit := Nat.testBit_ldiff (2 ^ o) m o
        rw [h0, Nat.zero_testBit, Nat.testBit_two_pow_self, h] at hbit
        simp at hbit
      simp [Int.natCast_eq_zero, hne]
    · have hz : Nat.ldiff (2 ^ o) m = 0 := Nat.eq_of_testBit_eq (fun k => by
        rw [Nat.testBit_ldiff, Nat.zero_testBit]
        by_cases hk : o = k
        · subst hk
          simp [h]
        · simp [Nat.testBit_two_pow_of_ne hk])
      simp [hz]

theorem setbit_testBit (b : Int) (o : Nat) (v : Bool) (k : Nat) :
    (setbit b o v).testBit k = if o = k then v else b.testBit k := by
  cases v with
  | true =>
    rw [setbit]
    simp only [if_true]
    rw [Int.one_shiftLeft, Int.testBit_lor, int_mask_testBit]
    by_cases h : o = k <;> simp [h]
  | false =>
    rw [setbit]
    simp only [Bool.false_eq_true, if_false]
    rw [Int.one_shiftLeft, Int.testBit_land, Int.testBit_lnot, int_mask_testBit]
    by_cases h : o = k <;> simp [h]

/-- C10: setting a bit and reading it back yields the written value, and every
other bit position is unchanged: setbit touches only the addressed bit, for
every integer, offset and Boolean value. -/
theorem setbit_getbit_spec (byte : Int) (offset : Nat) (value : Bool) :
    getbit (setbit byte offset value) offset = value ∧
    ∀ o2 : Nat, o2 ≠ offset → getbit (setbit byte offset value) o2 = getbit byte o2 := by
  constructor
  · rw [getbit_eq_testBit, setbit_testBit]
    simp
  · intro o2 hne
    rw [getbit_eq_testBit, setbit_testBit, getbit_eq_testBit]
    rw [if_neg (fun h => hne h.symm)]

theorem setbit_getbit_spec_witness :
    getbit (setbit 5 3 true) 3 = true ∧ getbit (setbit 5 3 true) 0 = getbit 5 0 :=
  ⟨(setbit_getbit_spec 5 3 true).1, (setbit_getbit_spec 5 3 true).2 0 (by decide)⟩

theorem buildValues_go_nodup (pairs : List (String × Int)) :
    ∀ acc : List (Int × String), (pairs.map Prod.snd).Nodup →
      (∀ q ∈ acc, q.1 ∉ pairs.map Prod.snd) →
      pairs.foldl (fun d kv => dictInsert d kv.2 kv.1) acc =
        acc ++ pairs.map fun kv => (kv.2, kv.1) := by
  induction pairs with
  | nil =>
    intro acc _ _
    simp
  | cons kv rest ih =>
    intro acc hnd hdisj
    rw [List.foldl_cons]
    have hany : (acc.any fun p => p.1 = kv.2) = false := by
      rw [List.any_eq_false]
      intro q hq
      simp only [decide_eq_true_eq]
      exact fun he => hdisj q hq (by simp [he])
    have hstep : dictInsert acc kv.2 kv.1 = acc ++ [(kv.2, kv.1)] := by
      simp [dictInsert, hany]
    have hnd' : (rest.map Prod.snd).Nodup := (List.nodup_cons.mp (by simpa using hnd)).2
    have hhead : kv.2 ∉ rest.map Prod.snd := (List.nodup_cons.mp (by simpa using hnd)).1
    rw [hstep, ih (acc ++ [(kv.2, kv.1)]) hnd' ?_]
    · simp
    · intro q hq
      rcases List.mem_append.mp hq with h | h
      · intro hin
        exact hdisj q h (by simp only [List.map_cons, List.mem_cons]; exact Or.inr hin)
      · have hq2 : q = (kv.2, kv.1) := by simpa using h
        subst hq2
        exact hhead

theorem buildValues_go_keys (pairs : List (String × Int)) :
    ∀ acc : List (Int × String), (acc.map Prod.fst).Nodup →
      ((pairs.foldl (fun d kv => dictInsert d kv.2 kv.1) acc).map Prod.fst).Nodup ∧
      ∀ v ∈ (pairs.foldl (fun d kv => dictInsert d kv.2 kv.1) acc).map Prod.fst,
        v ∈ acc.map Prod.fst ∨ v ∈ pairs.map Prod.snd := by
  induction pairs with
  | nil =>
    intro acc hacc
    simp only [List.foldl_nil]
    exact ⟨hacc, fun v hv => Or.inl hv⟩
  | cons kv rest ih =>
    intro acc hacc
    rw [List.foldl_cons]
    by_cases hany : (acc.any fun p => p.1 = kv.2) = true
    · have hkeys : (dictInsert acc kv.2 kv.1).map Prod.fst = acc.map Prod.fst := by
        simp only [dictInsert, hany, if_true]
        rw [List.map_map]
        apply List.map_congr_left
        intro p hp
        simp only [Function.comp_apply]
        by_cases hc : p.1 = kv.2
        · rw [if_pos hc]
          exact hc.symm
        · rw [if_neg hc]
      obtain ⟨h1, h2⟩ := ih (dictInsert acc kv.2 kv.1) (by rw [hkeys]; exact hacc)
      refine ⟨h1, fun v hv => ?_⟩
      rcases h2 v hv with h | h
      · rw [hkeys] at h
        exact Or.inl h
      · refine Or.inr ?_
        rw [List.map_cons]
        exact List.mem_cons.mpr (Or.inr h)
    · have hkeys : (dictInsert acc kv.2 kv.1).map Prod.fst = acc.map Prod.fst ++ [kv.2] := by
        simp [dictInsert, hany]
      have hnotin : kv.2 ∉ acc.map Prod.fst := by
        intro hin
        obtain ⟨p, hp, hpe⟩ := List.mem_map.mp hin
        exact hany (List.any_eq_true.mpr ⟨p, hp, by simp [hpe]⟩)
      obtain ⟨h1, h2⟩ := ih (dictInsert acc kv.2 kv.1) (by
        rw [hkeys]
        refine List.Nodup.append hacc (List.nodup_singleton _) ?_
        intro a ha hb
        have hab : a = kv.2 := by simpa using hb
        subst hab
        exact hnotin ha)
      refine ⟨h1, fun v hv => ?_⟩
      rcases h2 v hv with h | h
      · rw [hkeys] at h
        rcases List.mem_append.mp h with h | h
        · exact Or.inl h
        · have hv2 : v = kv.2 := by simpa using h
          subst hv2
          exact Or.inr (by simp)
      · refine Or.inr ?_
        rw [List.map_cons]
        exact List.mem_cons.mpr (Or.inr h)

theorem nodup_subset_length_le {l l2 : List Int} (h : l.Nodup) (hsub : l ⊆ l2) :
    l.length ≤ l2.dedup.length := by
  rw [← List.toFinset_card_of_nodup h, ← List.card_toFinset]
  exact Finset.card_le_card (fun a ha => List.mem_toFinset.mpr (hsub (List.mem_toFinset.mp ha)))

theorem dedup_length_lt {l : List Int} (h : ¬ l.Nodup) : l.dedup.length < l.length := by
  have hsub := List.dedup_sublist l
  have hle := hsub.length_le
  rcases Nat.lt_or_ge l.dedup.length l.length with hlt | hge
  · exact hlt
  · exfalso
    have heq : l.dedup = l := hsub.eq_of_length (by omega)
    exact h (heq ▸ List.nodup_dedup l)

theorem find?_eq_of_nodup_keys {α β : Type} [DecidableEq α] :
    ∀ (l : List (α × β)) (p : α × β), (l.map Prod.fst).Nodup → p ∈ l →
      l.find? (fun q => q.1 = p.1) = some p := by
  intro l
  induction l with
  | nil =>
    intro p _ hp
    simp at hp
  | cons q rest ih =>
    intro p hnd hp
    rw [List.map_cons] at hnd
    obtain ⟨hq1, hnd'⟩ := List.nodup_cons.mp hnd
    rw [List.find?_cons]
    by_cases hq : q.1 = p.1
    · have hpq : p = q := by
        rcases List.mem_cons.mp hp with h | hmem
        · exact h
        · exfalso
          have h1 : p.1 ∈ rest.map Prod.fst := List.mem_map_of_mem _ hmem
          exact hq1 (hq ▸ h1)
      subst hpq
      simp [hq]
    · have hmem : p ∈ rest := by
        rcases List.mem_cons.mp hp with h | hmem
        · exact absurd (by rw [h] : q.1 = p.1) hq
        · exact hmem
      simp [hq]
      exact ih p hnd' hmem

/-- C8: constructing a BiDi mapping from keyword pairs (distinct names, as
Python kwargs guarantee) fails with a ValueError-kind error exactly when two
pairs share a value; on success, attribute-style name lookup and reverse
value lookup return the stored partners. -/
theorem bidi_init_spec (pairs : List (String × Int)) (hn : (pairs.map Prod.fst).Nodup) :
    ((∃ b, BiDi.init pairs = .ok b) ↔ (pairs.map Prod.snd).Nodup) ∧
    (¬ (pairs.map Prod.snd).Nodup → BiDi.init pairs = .error .valueError) ∧
    (∀ b, BiDi.init pairs = .ok b →
      ∀ p ∈ pairs, b.getattr p.1 = some p.2 ∧ b.get_name p.2 = some p.1) := by
  by_cases hv : (pairs.map Prod.snd).Nodup
  · have hbuild : buildValues pairs = pairs.map fun kv => (kv.2, kv.1) := by
      rw [buildValues]
      have := buildValues_go_nodup pairs [] hv (by simp)
      simpa using this
    have hlen : pairs.length = (buildValues pairs).length := by
      rw [hbuild, List.length_map]
    have hinit : BiDi.init pairs = .ok ⟨pairs, buildValues pairs⟩ := by
      simp only [BiDi.init]
      rw [if_neg (by omega : ¬ pairs.length ≠ (buildValues pairs).length)]
    refine ⟨⟨fun _ => hv, fun _ => ⟨_, hinit⟩⟩, fun hc => absurd hv hc, ?_⟩
    intro b hb p hp
    rw [hinit] at hb
    cases hb
    constructor
    · show ((pairs.find? fun q => q.1 = p.1).map Prod.snd) = some p.2
      rw [find?_eq_of_nodup_keys pairs p hn hp]
      rfl
    · show (((buildValues pairs).find? fun q => q.1 = p.2).map Prod.snd) = some p.1
      rw [hbuild]
      rw [find?_eq_of_nodup_keys (pairs.map fun kv => (kv.2, kv.1)) (p.2, p.1)
        (by rw [List.map_map]; exact hv) (List.mem_map_of_mem _ hp)]
      rfl
  · have hkeys := buildValues_go_keys pairs [] (by simp)
    rw [← buildValues] at hkeys
    have hsub : (buildValues pairs).map Prod.fst ⊆ pairs.map Prod.snd := by
      intro v hvm
      rcases hkeys.2 v hvm with h | h
      · simp at h
      · exact h
    have hle : ((buildValues pairs).map Prod.fst).length ≤ (pairs.map Prod.snd).dedup.length :=
      nodup_subset_length_le hkeys.1 hsub
    have hlt : (pairs.map Prod.snd).dedup.length < (pairs.map Prod.snd).length :=
      dedup_length_lt hv
    have hne : pairs.length ≠ (buildValues pairs).length := by
      have h1 : ((buildValues pairs).map Prod.fst).length = (buildValues pairs).length :=
        List.length_map _ _
      have h2 : (pairs.map Prod.snd).length = pairs.length := List.length_map _ _
      omega
    have hinit : BiDi.init pairs = .error .valueError := by
      simp only [BiDi.init]
      rw [if_pos hne]
    refine ⟨⟨?_, fun h => absurd h hv⟩, fun _ => hinit, ?_⟩
    · rintro ⟨b, hb⟩
      rw [hinit] at hb
      simp at hb
    · intro b hb
      rw [hinit] at hb
      simp at hb

theorem bidi_init_spec_witness :
    ((["a", "b"] : List String) = [("a", (1 : Int)), ("b", 1)].map Prod.fst ∧
      ([("a", (1 : Int)), ("b", 1)].map Prod.fst).Nodup ∧
      BiDi.init [("a", (1 : Int)), ("b", 1)] = .error .valueError) ∧
    (([("a", (1 : Int)), ("b", 2)].map Prod.fst).Nodup ∧
      (∃ b, BiDi.init [("a", (1 : Int)), ("b", 2)] = .ok b)) :=
  ⟨⟨by decide,
    by decide,
    (bidi_init_spec [("a", 1), ("b", 1)] (by decide)).2.1 (by decide)⟩,
   ⟨by decide,
    ((bidi_init_spec [("a", 1), ("b", 2)] (by decide)).1).mpr (by decide)⟩⟩
